import Mathlib

/-! # CSHA1 (src/autov/SHA1.cpp): a shallow embedding

Machine words are natural numbers; every 32-bit operation of the source is
followed by an explicit reduction modulo `2 ^ 32`.  Bytes are natural numbers
as well.  The preprocessor switch `SHA1_LITTLE_ENDIAN` comes from `SHA1.h`,
which is not among the sources, so it is a parameter `le : Bool` of every
definition that depends on it; it stands for the byte order of the host too.
-/

set_option maxRecDepth 100000

namespace SHA1

/-! ## Words and the workspace -/

/-- The macro `ROL32(_val32, _nBits)`:
`((_val32) << (_nBits)) | ((_val32) >> (32 - (_nBits)))` on `uint32_t`. -/
def ROL32 (val32 nBits : Nat) : Nat :=
  ((val32 <<< nBits) % 2 ^ 32) ||| (val32 >>> (32 - nBits))

/-- The words reached through `m_block->l[i]`.  `l 0 .. l 15` are the 64 bytes
of `m_workspace` that `memcpy(m_block, buffer, 64)` fills; `l i` for `16 ≤ i`
is the memory that follows the workspace, which the source also indexes. -/
abbrev Workspace := Nat → Nat

/-- Assignment `l[i] = v`. -/
def Workspace.set (l : Workspace) (i v : Nat) : Workspace :=
  fun k => if k = i then v else l k

/-- The 32-bit word the host reads from four consecutive bytes. -/
def hostWord (le : Bool) (b0 b1 b2 b3 : Nat) : Nat :=
  if le then b0 + b1 * 2 ^ 8 + b2 * 2 ^ 16 + b3 * 2 ^ 24
  else b0 * 2 ^ 24 + b1 * 2 ^ 16 + b2 * 2 ^ 8 + b3

/-- The call `std::memcpy(m_block, buffer, 64)`: the sixteen words of the
workspace are overwritten with the 64 bytes of `buffer`, the rest is kept. -/
def loadBlock (le : Bool) (l : Workspace) (buffer : List Nat) : Workspace :=
  fun k =>
    if k < 16 then
      hostWord le (buffer.getD (4 * k) 0) (buffer.getD (4 * k + 1) 0)
        (buffer.getD (4 * k + 2) 0) (buffer.getD (4 * k + 3) 0)
    else l k

/-- The macro `SHABLK0(i)`: with `SHA1_LITTLE_ENDIAN` the word `l[i]` is
byte-swapped in place and the swapped word is the value; otherwise the value
is `l[i]` and nothing is written. -/
def SHABLK0 (le : Bool) (l : Workspace) (i : Nat) : Nat × Workspace :=
  if le then
    let v := ((ROL32 (l i) 24) &&& 0xFF00FF00) ||| ((ROL32 (l i) 8) &&& 0x00FF00FF)
    (v, l.set i v)
  else (l i, l)

/-- The macro `SHABLK(i)`: `l[i & 15]` is replaced by
`ROL32(l[(i + 13) & 15] ^ l[(i + 8) & 15] ^ l[(i + 2) & 15] ^ l[i & 15], 1)`,
which is the value. -/
def SHABLK (l : Workspace) (i : Nat) : Nat × Workspace :=
  let v := ROL32 (l ((i + 13) &&& 15) ^^^ l ((i + 8) &&& 15) ^^^ l ((i + 2) &&& 15)
    ^^^ l (i &&& 15)) 1
  (v, l.set (i &&& 15) v)

/-! ## The round macros

Each macro reads the five roles `v w x y z`, a round index and the workspace;
it assigns `z` and `w` and may write the workspace.  The result is
`(w, z, l)` after the macro. -/

/-- The macro `_R0(v, w, x, y, z, i)`. -/
def _R0 (le : Bool) (v w x y z i : Nat) (l : Workspace) : Nat × Nat × Workspace :=
  let blk := SHABLK0 le l i
  (ROL32 w 30, (z + (((w &&& (x ^^^ y)) ^^^ y) + blk.1 + 0x5A827999 + ROL32 v 5)) % 2 ^ 32, blk.2)

/-- The macro `_R1(v, w, x, y, z, i)`. -/
def _R1 (v w x y z i : Nat) (l : Workspace) : Nat × Nat × Workspace :=
  let blk := SHABLK l i
  (ROL32 w 30, (z + (((w &&& (x ^^^ y)) ^^^ y) + blk.1 + 0x5A827999 + ROL32 v 5)) % 2 ^ 32, blk.2)

/-- The macro `_R2(v, w, x, y, z, i)`. -/
def _R2 (v w x y z i : Nat) (l : Workspace) : Nat × Nat × Workspace :=
  let blk := SHABLK l i
  (ROL32 w 30, (z + ((w ^^^ x ^^^ y) + blk.1 + 0x6ED9EBA1 + ROL32 v 5)) % 2 ^ 32, blk.2)

/-- The macro `_R3(v, w, x, y, z, i)`. -/
def _R3 (v w x y z i : Nat) (l : Workspace) : Nat × Nat × Workspace :=
  let blk := SHABLK l i
  (ROL32 w 30, (z + ((((w ||| x) &&& y) ||| (w &&& x)) + blk.1 + 0x8F1BBCDC + ROL32 v 5)) % 2 ^ 32,
    blk.2)

/-- The macro `_R4(v, w, x, y, z, i)`; `Transform` never expands it. -/
def _R4 (v w x y z i : Nat) (l : Workspace) : Nat × Nat × Workspace :=
  let blk := SHABLK l i
  (ROL32 w 30, (z + ((w ^^^ x ^^^ y) + blk.1 + 0xCA62C1D6 + ROL32 v 5)) % 2 ^ 32, blk.2)

/-! ## Transform -/

/-- The locals `a b c d e` of `Transform` together with the workspace. -/
structure Vars where
  a : Nat
  b : Nat
  c : Nat
  d : Nat
  e : Nat
  l : Workspace

/-- The body of `for (int i = 0; i < 80; ++i)` in `Transform`: the chain
`if (i < 20) _R0(a,b,c,d,e,i) else if (i < 40) _R1(a,b,c,d,e,i)
else if (i < 60) _R2(a,b,c,d,e,i) else _R3(a,b,c,d,e,i)`.  Every expansion
passes the roles `(a, b, c, d, e)`, so `b` and `e` are the assigned locals. -/
def round (le : Bool) (s : Vars) (i : Nat) : Vars :=
  let r :=
    if i < 20 then _R0 le s.a s.b s.c s.d s.e i s.l
    else if i < 40 then _R1 s.a s.b s.c s.d s.e i s.l
    else if i < 60 then _R2 s.a s.b s.c s.d s.e i s.l
    else _R3 s.a s.b s.c s.d s.e i s.l
  { s with b := r.1, e := r.2.1, l := r.2.2 }

/-- The five words of `m_state`. -/
abbrev State := Nat × Nat × Nat × Nat × Nat

/-- `CSHA1::Transform(state, buffer)`: load the locals, copy the block into the
workspace, run the 80 rounds, add the locals back into `state`.  The result
is the new `state` and the workspace as the call leaves it. -/
def Transform (le : Bool) (state : State) (l : Workspace) (buffer : List Nat) :
    State × Workspace :=
  let s0 : Vars :=
    { a := state.1, b := state.2.1, c := state.2.2.1, d := state.2.2.2.1, e := state.2.2.2.2,
      l := loadBlock le l buffer }
  let s := (List.range 80).foldl (round le) s0
  (((state.1 + s.a) % 2 ^ 32, (state.2.1 + s.b) % 2 ^ 32, (state.2.2.1 + s.c) % 2 ^ 32,
    (state.2.2.2.1 + s.d) % 2 ^ 32, (state.2.2.2.2 + s.e) % 2 ^ 32), s.l)

/-! ## The engine -/

/-- The fields of a `CSHA1` object that `SHA1.cpp` uses.  `transforms` is not
a field of the class: it counts the calls of `Transform` made so far, so that
statements about how often the compression runs can be written down. -/
structure CSHA1 where
  m_state : State
  m_count : Nat × Nat
  m_buffer : List Nat
  m_block : Workspace
  transforms : Nat

/-- The number of buffered bytes, `(m_count[0] >> 3) & 63`. -/
def CSHA1.j (s : CSHA1) : Nat := (s.m_count.1 >>> 3) &&& 63

/-- The buffered residual: the first `(m_count[0] >> 3) & 63` bytes of
`m_buffer`. -/
def CSHA1.residual (s : CSHA1) : List Nat := s.m_buffer.take s.j

/-- `CSHA1::Reset()`: the five state words and the two counter words are
assigned; nothing else is. -/
def Reset (s : CSHA1) : CSHA1 :=
  { s with
    m_state := (0x67452301, 0xEFCDAB89, 0x98BADCFE, 0x10325476, 0xC3D2E1F0)
    m_count := (0, 0) }

/-- A call `Transform(m_state, buffer)` made by the engine. -/
def CSHA1.Transform (le : Bool) (s : CSHA1) (buffer : List Nat) : CSHA1 :=
  let r := SHA1.Transform le s.m_state s.m_block buffer
  { s with m_state := r.1, m_block := r.2, transforms := s.transforms + 1 }

/-- What stops a call that touches memory it does not own, or a loop that
does not end within its bound. -/
inductive Fault where
  | bufferOverflow
  | dataOverread
  | fuel
  deriving DecidableEq

/-- The call `std::memcpy(&dst[j], &src[i], n)`: `bufferOverflow` when the
`n` bytes written do not fit in `dst`, `dataOverread` when the `n` bytes read
do not lie in `src`. -/
def memcpy (dst : List Nat) (j : Nat) (src : List Nat) (i n : Nat) : Except Fault (List Nat) :=
  if dst.length < j + n then .error .bufferOverflow
  else if src.length < i + n then .error .dataOverread
  else .ok (dst.take j ++ (src.drop i).take n ++ dst.drop (j + n))

/-- Lines 120 to 124 of `Update`:
`if ((m_count[0] += len << 3) < (len << 3)) m_count[1]++;`
`m_count[1] += (len >> 29);`. -/
def updateCount (count : Nat × Nat) (len : Nat) : Nat × Nat :=
  let c0 := (count.1 + (len <<< 3) % 2 ^ 32) % 2 ^ 32
  let c1 := if c0 < (len <<< 3) % 2 ^ 32 then (count.2 + 1) % 2 ^ 32 else count.2
  (c0, (c1 + (len >>> 29)) % 2 ^ 32)

/-- The loop `for (; i + 63 < len; i += 64) Transform(m_state, &data[i]);`
of `Update`, with 32-bit `i`.  The first argument bounds the number of
iterations; `fuel` is returned when the bound is reached with the loop
condition still true.  The result is the final `i` and the engine. -/
def UpdateLoop (le : Bool) (data : List Nat) (len : Nat) :
    Nat → Nat → CSHA1 → Except Fault (Nat × CSHA1)
  | 0, i, s => if (i + 63) % 2 ^ 32 < len then .error .fuel else .ok (i, s)
  | n + 1, i, s =>
    if (i + 63) % 2 ^ 32 < len then
      if data.length < i + 64 then .error .dataOverread
      else UpdateLoop le data len n ((i + 64) % 2 ^ 32) (s.Transform le ((data.drop i).take 64))
    else .ok (i, s)

/-- `CSHA1::Update(data, len)`, where `data` holds exactly the `len` bytes
behind the pointer (`len = data.length`, a `uint32_t`).  The direct-block loop
is run with the bound `len / 64`. -/
def Update (le : Bool) (s : CSHA1) (data : List Nat) : Except Fault CSHA1 :=
  let len := data.length
  let j := (s.m_count.1 >>> 3) &&& 63
  let s := { s with m_count := updateCount s.m_count len }
  if (j + len) % 2 ^ 32 > 63 then do
    let i := 64 - j
    let buf ← memcpy s.m_buffer j data 0 i
    let s := CSHA1.Transform le { s with m_buffer := buf } buf
    let (i, s) ← UpdateLoop le data len (len / 64) i s
    let buf ← memcpy s.m_buffer 0 data i ((len + 2 ^ 32 - i) % 2 ^ 32)
    pure { s with m_buffer := buf }
  else do
    let buf ← memcpy s.m_buffer j data 0 ((len + 2 ^ 32 - 0) % 2 ^ 32)
    pure { s with m_buffer := buf }

/-- A sequence of `Update` calls, one per chunk, stopping at the first
fault. -/
def UpdateAll (le : Bool) (s : CSHA1) : List (List Nat) → Except Fault CSHA1
  | [] => .ok s
  | c :: cs => do
    let s ← Update le s c
    UpdateAll le s cs

/-! ## The schedule, as the code consumes it and as FIPS 180-1 defines it -/

/-- The schedule word round `i` of `Transform` consumes, with the workspace
the round leaves: `SHABLK0(i)` where the loop expands `_R0` (`i < 20`),
`SHABLK(i)` where it expands `_R1`, `_R2` or `_R3`. -/
def roundBlk (le : Bool) (l : Workspace) (i : Nat) : Nat × Workspace :=
  if i < 20 then SHABLK0 le l i else SHABLK l i

/-- The workspace before round `t` of a `Transform` of `buffer`. -/
def workspaceAt (le : Bool) (l : Workspace) (buffer : List Nat) (t : Nat) : Workspace :=
  (List.range t).foldl (fun w i => (roundBlk le w i).2) (loadBlock le l buffer)

/-- The schedule word consumed in round `t` of a `Transform` of `buffer`. -/
def scheduleWord (le : Bool) (l : Workspace) (buffer : List Nat) (t : Nat) : Nat :=
  (roundBlk le (workspaceAt le l buffer t) t).1

/-- The `k`-th big-endian word of a block. -/
def bigEndianWord (block : List Nat) (k : Nat) : Nat :=
  block.getD (4 * k) 0 * 2 ^ 24 + block.getD (4 * k + 1) 0 * 2 ^ 16
    + block.getD (4 * k + 2) 0 * 2 ^ 8 + block.getD (4 * k + 3) 0

/-- The reference schedule, by the words of the specification: the first `n`
words `W[0] .. W[n-1]`, where `W[0..15]` are the big-endian words of the
block and `W[t] = rotl(W[t-3] ^ W[t-8] ^ W[t-14] ^ W[t-16], 1)` from 16 on. -/
def refSchedule (block : List Nat) : Nat → List Nat
  | 0 => []
  | t + 1 =>
    let w := refSchedule block t
    if t < 16 then w ++ [bigEndianWord block t]
    else w ++ [ROL32 (w.getD (t - 3) 0 ^^^ w.getD (t - 8) 0 ^^^ w.getD (t - 14) 0
      ^^^ w.getD (t - 16) 0) 1]

/-- The additive constant of round `i`, by the words of the specification:
four groups of 20 rounds, the `k`-th group adds the `k`-th constant. -/
def specConstant (i : Nat) : Nat :=
  [0x5A827999, 0x6ED9EBA1, 0x8F1BBCDC, 0xCA62C1D6].getD (i / 20) 0

/-- The mixing function of round `i`, by the words of the specification. -/
def specMix (i w x y : Nat) : Nat :=
  if i / 20 = 0 then (w &&& (x ^^^ y)) ^^^ y
  else if i / 20 = 1 then w ^^^ x ^^^ y
  else if i / 20 = 2 then ((w ||| x) &&& y) ||| (w &&& x)
  else w ^^^ x ^^^ y

/-- The SHA-1 step of round `i`, by the words of the specification:
`(a, b, c, d, e) <- (rotl(a,5) + f(b,c,d) + e + W + K, a, rotl(b,30), c, d)`
with schedule word `W`. -/
def specStep (i W : Nat) (s : State) : State :=
  ((ROL32 s.1 5 + specMix i s.2.1 s.2.2.1 s.2.2.2.1 + s.2.2.2.2 + W + specConstant i) % 2 ^ 32,
    s.1, ROL32 s.2.1 30, s.2.2.1, s.2.2.2.1)

/-- The locals `(a, b, c, d, e)` read in the order of the roles
`(v, w, x, y, z)` of round `i`, by the words of the specification: rotated by
`i` positions (round 0: `a,b,c,d,e`; round 1: `e,a,b,c,d`; ...). -/
def specRoles (i : Nat) (s : Vars) : State :=
  match i % 5 with
  | 0 => (s.a, s.b, s.c, s.d, s.e)
  | 1 => (s.e, s.a, s.b, s.c, s.d)
  | 2 => (s.d, s.e, s.a, s.b, s.c)
  | 3 => (s.c, s.d, s.e, s.a, s.b)
  | _ => (s.b, s.c, s.d, s.e, s.a)

/-! ## Sample inputs -/

/-- An engine with every word and byte zero. -/
def zeroEngine : CSHA1 :=
  { m_state := (0, 0, 0, 0, 0), m_count := (0, 0), m_buffer := List.replicate 64 0,
    m_block := fun _ => 0, transforms := 0 }

/-- The three bytes of "abc". -/
def abc : List Nat := [0x61, 0x62, 0x63]

/-- The padding FIPS 180-1 appends to a 3-byte message: `0x80`, 52 zero
bytes, the bit length 24 as 8 big-endian bytes. -/
def abcPadding : List Nat := [0x80] ++ List.replicate 52 0 ++ [0, 0, 0, 0, 0, 0, 0, 24]

/-- The locals `a .. e = 1 .. 5` over a zero workspace. -/
def sampleVars : Vars := { a := 1, b := 2, c := 3, d := 4, e := 5, l := fun _ => 0 }

/-- A block whose only non-zero byte is byte 7, so that `W[1] = 1`. -/
def sampleBlock : List Nat := List.replicate 7 0 ++ [1] ++ List.replicate 56 0

/-- The locals with `(b, c, d) = (3, 5, 6)`, on which the three mixing
functions take the distinct values 5, 0 and 7, and `a = e = 0`, over a zero
workspace. -/
def mixVars : Vars := { a := 0, b := 3, c := 5, d := 6, e := 0, l := fun _ => 0 }

/-- An engine whose 64 buffer bytes are all `0xFF`. -/
def staleEngine : CSHA1 := { zeroEngine with m_buffer := List.replicate 64 0xFF }

/-- The digest of "abc" in the header comment of `SHA1.cpp`
(FIPS PUB 180-1): `A9993E36 4706816A BA3E2571 7850C26C 9CD0D89D`. -/
def fipsAbc : State := (0xA9993E36, 0x4706816A, 0xBA3E2571, 0x7850C26C, 0x9CD0D89D)

/-- The state words of a finished run, if it finished. -/
def stateOf (r : Except Fault CSHA1) : Option State := r.toOption.map CSHA1.m_state


/-! ## The stream of 64-byte blocks -/

/-- The first `n` consecutive 64-byte blocks of `m`, in order. -/
def firstBlocks : Nat → List Nat → List (List Nat)
  | 0, _ => []
  | n + 1, m => m.take 64 :: firstBlocks n (m.drop 64)

/-- The `m.length / 64` consecutive 64-byte blocks of `m`, in order. -/
def blocks (m : List Nat) : List (List Nat) := firstBlocks (m.length / 64) m

/-- The last `m.length % 64` bytes of `m`: what follows its full blocks. -/
def lastBytes (m : List Nat) : List Nat := m.drop (64 * (m.length / 64))

/-- What `Transform` reads and writes of the engine: the state words, the
workspace, and the count of calls. -/
def CSHA1.core (s : CSHA1) : State × Workspace × Nat := (s.m_state, s.m_block, s.transforms)

/-- One `Transform` call on the part of the engine it touches. -/
def coreTransform (le : Bool) (c : State × Workspace × Nat) (buffer : List Nat) :
    State × Workspace × Nat :=
  ((Transform le c.1 c.2.1 buffer).1, (Transform le c.1 c.2.1 buffer).2, c.2.2 + 1)

/-- The engine after `Reset` and `n` zero bytes, for `n < 64`: the bit count
is `8 * n`, so `n` bytes are buffered. -/
def buffered (n : Nat) : CSHA1 := { Reset zeroEngine with m_count := (8 * n, 0) }


/-! ## The indices of the workspace a round touches -/

/-- The index of `m_block->l` that `SHABLK0(i)` reads (and, with
`SHA1_LITTLE_ENDIAN`, writes): `l[i]`. -/
def SHABLK0_indices (i : Nat) : List Nat := [i]

/-- The indices of `m_block->l` that `SHABLK(i)` reads, the last of which it
writes: `l[(i + 13) & 15]`, `l[(i + 8) & 15]`, `l[(i + 2) & 15]`, `l[i & 15]`. -/
def SHABLK_indices (i : Nat) : List Nat :=
  [(i + 13) &&& 15, (i + 8) &&& 15, (i + 2) &&& 15, i &&& 15]

/-- The indices of `m_block->l` that round `i` of `Transform` touches: those
of `SHABLK0(i)` where the loop expands `_R0` (`i < 20`), those of `SHABLK(i)`
otherwise. -/
def roundIndices (i : Nat) : List Nat :=
  if i < 20 then SHABLK0_indices i else SHABLK_indices i

/-- The expression `(ROL32(x, 24) & 0xFF00FF00) | (ROL32(x, 8) & 0x00FF00FF)`
of `SHABLK0`. -/
def byteSwap (x : Nat) : Nat :=
  ((ROL32 x 24) &&& 0xFF00FF00) ||| ((ROL32 x 8) &&& 0x00FF00FF)

/-! ## HashFile -/

/-- The constant `SHA1_MAX_FILE_BUFFER`. -/
def SHA1_MAX_FILE_BUFFER : Nat := 8000

/-- What one call `fread(data, 1, SHA1_MAX_FILE_BUFFER, file)` delivers: the
bytes stored in `data`, whose number is the value returned, and whether
`ferror(file)` holds after the call. -/
structure Read where
  bytes : List Nat
  error : Bool

/-- How `HashFile` ends when it does not return: one of its two exceptions,
or a fault inside `Update`. -/
inductive HashFileError where
  | couldNotOpen
  | errorReading
  | fault (f : Fault)
  deriving DecidableEq

/-- The loop `while ((bytesRead = fread(...)) != 0) { if (ferror(file)) throw
...; Update(data, bytesRead); }` over the successive results of `fread`;
after the last listed result `fread` returns 0 at the end of the file. -/
def HashFileLoop (le : Bool) : CSHA1 → List Read → Except HashFileError CSHA1
  | s, [] => .ok s
  | s, r :: rs =>
    if r.bytes.length = 0 then .ok s
    else if r.error then .error .errorReading
    else
      match Update le s r.bytes with
      | .error f => .error (.fault f)
      | .ok s' => HashFileLoop le s' rs

/-- `CSHA1::HashFile(filename)`, where the file is `none` when `fopen` fails
and otherwise the successive results of `fread`.  The result is the value
returned and the engine. -/
def HashFile (le : Bool) (s : CSHA1) (file : Option (List Read)) :
    Except HashFileError (Bool × CSHA1) :=
  match file with
  | none => .error .couldNotOpen
  | some reads =>
    match HashFileLoop le s reads with
    | .error e => .error e
    | .ok s' => .ok (true, s')

/-- The five initial constants of `Reset`. -/
def initialState : State := (0x67452301, 0xEFCDAB89, 0x98BADCFE, 0x10325476, 0xC3D2E1F0)

/-- A state of the memory that follows the workspace: word 16 of `m_block->l`
is 1, every other word is 0. -/
def oneAfterWorkspace : Workspace := fun k => if k = 16 then 1 else 0

/-- A state of the workspace proper: its sixteen words are 7, the memory that
follows it is 0. -/
def sevensInWorkspace : Workspace := fun k => if k < 16 then 7 else 0

/-- An engine whose fields are zero and where the word that follows the
workspace in memory, `m_block->l[16]`, is 1. -/
def engineOneAfter : CSHA1 := { zeroEngine with m_block := oneAfterWorkspace }

/-- The same engine with `m_block->l[16] = 0x01000000`, the byte swap of 1. -/
def engineSwappedAfter : CSHA1 :=
  { zeroEngine with m_block := fun k => if k = 16 then 16777216 else 0 }

/-- What a run leaves in `m_block->l[16]`, if it finished. -/
def wordAfterWorkspace (r : Except Fault CSHA1) : Option Nat :=
  r.toOption.map (fun s => s.m_block 16)

/-- `Reset` followed by the `Update` calls of `chunks`, done twice in a row on
the same engine. -/
def resetAndUpdateTwice (le : Bool) (s : CSHA1) (chunks : List (List Nat)) :
    Except Fault CSHA1 :=
  match UpdateAll le (Reset s) chunks with
  | .error e => .error e
  | .ok s' => UpdateAll le (Reset s') chunks

/-- Two engines that a sequence of `Update` calls cannot tell apart: the same
state words, counter words and buffered residual, 64-byte buffers, and the
same memory after the sixteen words of the workspace. -/
def CSHA1.alike (s t : CSHA1) : Prop :=
  s.m_state = t.m_state ∧ s.m_count = t.m_count ∧ s.residual = t.residual
    ∧ s.m_buffer.length = 64 ∧ t.m_buffer.length = 64
    ∧ ∀ k, 16 ≤ k → s.m_block k = t.m_block k

/-- The bytes of a file, read by read. -/
def chunksOf (reads : List Read) : List (List Nat) := reads.map Read.bytes

/-- The content of a file: the bytes of its reads, concatenated. -/
def contentOf (reads : List Read) : List Nat := (chunksOf reads).flatten

/-- A read that fills the 8000-byte buffer with zero bytes, without error. -/
def fullRead : Read := ⟨List.replicate 8000 0, false⟩

/-- A read of 7295 zero bytes, without error. -/
def lastRead : Read := ⟨List.replicate 7295 0, false⟩

/-- A file of `2 ^ 32 - 1` zero bytes as `fread` delivers it: 536870 reads of
8000 bytes and a last read of 7295 bytes. -/
def bigFile : List Read := List.replicate 536870 fullRead ++ [lastRead]

/-! # Theorems -/

/-! ## Transform -/

theorem round_a (le : Bool) (s : Vars) (i : Nat) : (round le s i).a = s.a := rfl

theorem round_c (le : Bool) (s : Vars) (i : Nat) : (round le s i).c = s.c := rfl

theorem round_d (le : Bool) (s : Vars) (i : Nat) : (round le s i).d = s.d := rfl

theorem foldl_round_acd (le : Bool) (xs : List Nat) (s : Vars) :
    (xs.foldl (round le) s).a = s.a ∧ (xs.foldl (round le) s).c = s.c
      ∧ (xs.foldl (round le) s).d = s.d := by
  induction xs generalizing s with
  | nil => exact ⟨rfl, rfl, rfl⟩
  | cons i xs ih =>
    have h := ih (round le s i)
    simpa [List.foldl_cons, round_a, round_c, round_d] using h

/-- No round assigns `a`, `c` or `d`, so `Transform` doubles the words 0, 2
and 3 of the state, whatever the block and the workspace are. -/
theorem Transform_doubles (le : Bool) (state : State) (l : Workspace) (buffer : List Nat) :
    (Transform le state l buffer).1.1 = (state.1 + state.1) % 2 ^ 32
      ∧ (Transform le state l buffer).1.2.2.1 = (state.2.2.1 + state.2.2.1) % 2 ^ 32
      ∧ (Transform le state l buffer).1.2.2.2.1 = (state.2.2.2.1 + state.2.2.2.1) % 2 ^ 32 := by
  obtain ⟨ha, hc, hd⟩ := foldl_round_acd le (List.range 80)
    { a := state.1, b := state.2.1, c := state.2.2.1, d := state.2.2.2.1, e := state.2.2.2.2,
      l := loadBlock le l buffer }
  simp only [Transform, ha, hc, hd]
  exact ⟨trivial, trivial, trivial⟩

/-- Round `i` leaves the workspace that `roundBlk` leaves. -/
theorem round_l (le : Bool) (s : Vars) (i : Nat) : (round le s i).l = (roundBlk le s.l i).2 := by
  simp only [round, roundBlk, _R0, _R1, _R2, _R3]
  split_ifs <;> rfl

/-- Round `i` adds to `e` its mixing function of `(b, c, d)`, the schedule
word of `roundBlk`, its constant and `ROL32(a, 5)`: the first function and
constant up to round 39, the second up to round 59, the third from round 60
on. -/
theorem round_e (le : Bool) (s : Vars) (i : Nat) :
    (round le s i).e = (s.e + ((if i < 40 then (s.b &&& (s.c ^^^ s.d)) ^^^ s.d
        else if i < 60 then s.b ^^^ s.c ^^^ s.d
        else ((s.b ||| s.c) &&& s.d) ||| (s.b &&& s.c))
      + (roundBlk le s.l i).1
      + (if i < 40 then 0x5A827999 else if i < 60 then 0x6ED9EBA1 else 0x8F1BBCDC)
      + ROL32 s.a 5)) % 2 ^ 32 := by
  simp only [round, roundBlk, _R0, _R1, _R2, _R3]
  split_ifs <;> first | rfl | omega

theorem round_b (le : Bool) (s : Vars) (i : Nat) : (round le s i).b = ROL32 s.b 30 := by
  simp only [round, _R0, _R1, _R2, _R3]
  split_ifs <;> rfl

/-- The workspace after the first `t` rounds of `Transform` is
`workspaceAt .. t`, whatever the locals are. -/
theorem foldl_round_l (le : Bool) (t : Nat) (s : Vars) :
    ((List.range t).foldl (round le) s).l
      = (List.range t).foldl (fun w i => (roundBlk le w i).2) s.l := by
  induction t with
  | zero => rfl
  | succ t ih => rw [List.range_succ, List.foldl_append, List.foldl_append]; simp [round_l, ih]

/-- C2: after `Reset`, `Update("abc")` and `Update` of the FIPS padding, the
state words are `CE8A4602 DF9B5712 3175B9FC 2064A8EC F0EED567` on either byte
order, not the digest `A9993E36 4706816A BA3E2571 7850C26C 9CD0D89D` that the
header comment of the source gives for "abc". -/
theorem abc_vector_not_reproduced :
    stateOf (UpdateAll true (Reset zeroEngine) [abc, abcPadding])
        = some (0xCE8A4602, 0xDF9B5712, 0x3175B9FC, 0x2064A8EC, 0xF0EED567)
      ∧ stateOf (UpdateAll false (Reset zeroEngine) [abc, abcPadding])
        = some (0xCE8A4602, 0xDF9B5712, 0x3175B9FC, 0x2064A8EC, 0xF0EED567)
      ∧ stateOf (UpdateAll true (Reset zeroEngine) [abc, abcPadding]) ≠ some fipsAbc
      ∧ stateOf (UpdateAll false (Reset zeroEngine) [abc, abcPadding]) ≠ some fipsAbc :=
  ⟨by decide, by decide, by decide, by decide⟩

/-- C6: on locals where the three mixing functions give 5, 0 and 7, the 80
rounds add `5 + 0x5A827999` in rounds 0 to 39, `0 + 0x6ED9EBA1` in rounds 40
to 59 and `7 + 0x8F1BBCDC` in rounds 60 to 79: the first constant serves 40
rounds, `0xCA62C1D6` serves none, and from round 20 on this is not the
constant and mixing function of the round's group of 20. -/
theorem round_groups_shifted :
    (List.range 80).map (fun i => (round true mixVars i).e)
        = List.replicate 40 (5 + 0x5A827999) ++ List.replicate 20 0x6ED9EBA1
          ++ List.replicate 20 (7 + 0x8F1BBCDC)
      ∧ (List.range 80).map (fun i => (specMix i 3 5 6 + specConstant i) % 2 ^ 32)
        = List.replicate 20 (5 + 0x5A827999) ++ List.replicate 20 0x6ED9EBA1
          ++ List.replicate 20 (7 + 0x8F1BBCDC) ++ List.replicate 20 0xCA62C1D6
      ∧ (round true mixVars 20).e ≠ (specMix 20 3 5 6 + specConstant 20) % 2 ^ 32 := by
  decide

/-- C7: round 1 on `a .. e = 1 .. 5` assigns `e` and `b` as round 0 does and
leaves `a = 1` and `d = 4`, where the rotated roles `(e, a, b, c, d)` have it
assign `d` and `a`; read through the roles, round 0 is the SHA-1 step and
round 1 is not. -/
theorem round_roles_not_rotated :
    ((round true sampleVars 1).a, (round true sampleVars 1).b, (round true sampleVars 1).c,
        (round true sampleVars 1).d, (round true sampleVars 1).e)
        = (1, ROL32 2 30, 3, 4, 5 + ((2 &&& (3 ^^^ 4)) ^^^ 4) + 0x5A827999 + ROL32 1 5)
      ∧ specRoles 1 (round true sampleVars 0)
        = specStep 0 (roundBlk true sampleVars.l 0).1 (specRoles 0 sampleVars)
      ∧ specRoles 2 (round true sampleVars 1)
        ≠ specStep 1 (roundBlk true sampleVars.l 1).1 (specRoles 1 sampleVars) := by
  decide

/-- C8: for the block with `W[1] = 1` the reference schedule has `W[17] = 2`
and `W[20] = 4`; round 17 consumes the word at index 17, past the sixteen
words of the block (here whatever follows the workspace, 9 or 0), and round
20 consumes `rotl(W[1] ^ W[12] ^ W[6] ^ W[4], 1) = 2` on either byte order. -/
theorem schedule_not_reference :
    (refSchedule sampleBlock 80).getD 17 0 = 2
      ∧ (refSchedule sampleBlock 80).getD 20 0 = 4
      ∧ scheduleWord false (fun _ => 9) sampleBlock 17 = 9
      ∧ scheduleWord false (fun _ => 0) sampleBlock 17 = 0
      ∧ scheduleWord true (fun _ => 0) sampleBlock 20 = 2
      ∧ scheduleWord false (fun _ => 0) sampleBlock 20 = 2 := by
  decide

/-! ## Reset -/

/-- C9 (as stated): `Reset` does not zero `m_buffer`; an engine whose buffer
holds 64 bytes `0xFF` still holds them after `Reset`. -/
theorem Reset_keeps_stale_buffer :
    (Reset staleEngine).m_buffer = List.replicate 64 0xFF
      ∧ (Reset staleEngine).m_buffer ≠ List.replicate 64 0 := by
  decide

/-- C9 (amended): after `Reset` from any engine state the state words are
`(0x67452301, 0xEFCDAB89, 0x98BADCFE, 0x10325476, 0xC3D2E1F0)`, both counter
words are 0, and `m_buffer` holds the bytes it held before. -/
theorem Reset_post (s : CSHA1) :
    (Reset s).m_state = (0x67452301, 0xEFCDAB89, 0x98BADCFE, 0x10325476, 0xC3D2E1F0)
      ∧ (Reset s).m_count = (0, 0)
      ∧ (Reset s).m_buffer = s.m_buffer :=
  ⟨rfl, rfl, rfl⟩

/-! ## The bit-length counter and the stream of blocks -/

/-- The counter step in closed form: the low word is the sum modulo `2 ^ 32`
and the high word receives the quotient. -/
theorem updateCount_eq (c0 c1 len : Nat) (h0 : c0 < 2 ^ 32) :
    updateCount (c0, c1) len
      = ((c0 + 8 * len) % 2 ^ 32, (c1 + (c0 + 8 * len) / 2 ^ 32) % 2 ^ 32) := by
  simp only [updateCount, Nat.shiftLeft_eq, Nat.shiftRight_eq_div_pow]
  split <;> (ext <;> simp <;> omega)

theorem and_63 (x : Nat) : x &&& 63 = x % 64 := Nat.and_pow_two_sub_one_eq_mod x 6

theorem j_eq (s : CSHA1) : s.j = s.m_count.1 / 8 % 64 := by
  simp [CSHA1.j, and_63, Nat.shiftRight_eq_div_pow]

theorem j_lt (s : CSHA1) : s.j < 64 := by
  rw [j_eq]; omega

theorem j_updateCount (s : CSHA1) (len : Nat) :
    ((updateCount s.m_count len).1 >>> 3) &&& 63 = (s.j + len) % 64 := by
  simp only [j_eq, updateCount, and_63, Nat.shiftRight_eq_div_pow, Nat.shiftLeft_eq]
  omega

theorem core_Transform (le : Bool) (s : CSHA1) (b : List Nat) :
    (s.Transform le b).core = coreTransform le s.core b := rfl

theorem core_foldl (le : Bool) (bs : List (List Nat)) (s : CSHA1) :
    (bs.foldl (CSHA1.Transform le) s).core = bs.foldl (coreTransform le) s.core := by
  induction bs generalizing s with
  | nil => rfl
  | cons b bs ih => simp [List.foldl_cons, ih, core_Transform]

theorem frame_foldl (le : Bool) (bs : List (List Nat)) (s : CSHA1) :
    (bs.foldl (CSHA1.Transform le) s).m_count = s.m_count
      ∧ (bs.foldl (CSHA1.Transform le) s).m_buffer = s.m_buffer := by
  induction bs generalizing s with
  | nil => exact ⟨rfl, rfl⟩
  | cons b bs ih => simpa [List.foldl_cons] using ih (s.Transform le b)

theorem blocks_of_lt (m : List Nat) (h : m.length < 64) : blocks m = [] := by
  simp [blocks, Nat.div_eq_of_lt h, firstBlocks]

theorem blocks_of_ge (m : List Nat) (h : 64 ≤ m.length) :
    blocks m = m.take 64 :: blocks (m.drop 64) := by
  have h1 : m.length / 64 = (m.length - 64) / 64 + 1 := by omega
  simp [blocks, h1, firstBlocks]

theorem lastBytes_length (m : List Nat) : (lastBytes m).length = m.length % 64 := by
  simp [lastBytes]; omega

theorem lastBytes_of_lt (m : List Nat) (h : m.length < 64) : lastBytes m = m := by
  simp [lastBytes, Nat.div_eq_of_lt h]

theorem lastBytes_of_ge (m : List Nat) (h : 64 ≤ m.length) :
    lastBytes m = lastBytes (m.drop 64) := by
  have h1 : m.length / 64 = (m.length - 64) / 64 + 1 := by omega
  simp only [lastBytes, List.length_drop, List.drop_drop, h1]
  congr 1; omega

theorem blocks_append (b : List Nat) (n : Nat) :
    ∀ m : List Nat, m.length / 64 = n → blocks (m ++ b) = blocks m ++ blocks (lastBytes m ++ b) := by
  induction n with
  | zero =>
    intro m hm
    have h : m.length < 64 := by omega
    simp [blocks_of_lt m h, lastBytes_of_lt m h]
  | succ n ih =>
    intro m hm
    have h : 64 ≤ m.length := by omega
    have h2 : 64 ≤ (m ++ b).length := by simp; omega
    rw [blocks_of_ge _ h2, blocks_of_ge m h, lastBytes_of_ge m h]
    have h3 : (m.drop 64).length / 64 = n := by simp; omega
    have := ih (m.drop 64) h3
    simp [List.take_append_of_le_length h, List.drop_append_of_le_length h, this]

theorem lastBytes_append (b : List Nat) (n : Nat) :
    ∀ m : List Nat, m.length / 64 = n → lastBytes (m ++ b) = lastBytes (lastBytes m ++ b) := by
  induction n with
  | zero =>
    intro m hm
    have h : m.length < 64 := by omega
    simp [lastBytes_of_lt m h]
  | succ n ih =>
    intro m hm
    have h : 64 ≤ m.length := by omega
    have h2 : 64 ≤ (m ++ b).length := by simp; omega
    rw [lastBytes_of_ge _ h2, lastBytes_of_ge m h]
    have h3 : (m.drop 64).length / 64 = n := by simp; omega
    have := ih (m.drop 64) h3
    simp [List.drop_append_of_le_length h, this]

theorem UpdateLoop_spec (le : Bool) (data : List Nat) (n : Nat) :
    ∀ (fuel i : Nat) (s : CSHA1), n ≤ fuel → i + 64 * n ≤ data.length →
      data.length < i + 64 * n + 64 → i + 64 * n + 63 < 2 ^ 32 →
      UpdateLoop le data data.length fuel i s
        = .ok (i + 64 * n, (firstBlocks n (data.drop i)).foldl (CSHA1.Transform le) s) := by
  induction n with
  | zero =>
    intro fuel i s _ h1 h2 h3
    have hc : ¬ (i + 63) % 2 ^ 32 < data.length := by
      rw [Nat.mod_eq_of_lt (by omega)]; omega
    cases fuel <;> rw [UpdateLoop, if_neg hc] <;> simp [firstBlocks]
  | succ n ih =>
    intro fuel i s hf h1 h2 h3
    obtain ⟨f, rfl⟩ : ∃ f, fuel = f + 1 := ⟨fuel - 1, by omega⟩
    have hc : (i + 63) % 2 ^ 32 < data.length := by
      rw [Nat.mod_eq_of_lt (by omega)]; omega
    have hd : ¬ data.length < i + 64 := by omega
    have hi : (i + 64) % 2 ^ 32 = i + 64 := Nat.mod_eq_of_lt (by omega)
    rw [UpdateLoop, if_pos hc, if_neg hd, hi,
      ih f (i + 64) _ (by omega) (by omega) (by omega) (by omega)]
    simp only [firstBlocks, List.foldl_cons, List.drop_drop]
    congr 2
    omega

theorem memcpy_ok (dst : List Nat) (j : Nat) (src : List Nat) (i n : Nat)
    (hd : j + n ≤ dst.length) (hs : i + n ≤ src.length) :
    memcpy dst j src i n = .ok (dst.take j ++ (src.drop i).take n ++ dst.drop (j + n)) := by
  rw [memcpy, if_neg (by omega), if_neg (by omega)]

/-- An `Update` that does not complete a block appends `data` to the buffer
at `j` and steps the counter. -/
theorem Update_short (le : Bool) (s : CSHA1) (data : List Nat) (hb : s.m_buffer.length = 64)
    (h : s.j + data.length ≤ 63) :
    Update le s data = .ok { s with
      m_count := updateCount s.m_count data.length
      m_buffer := s.m_buffer.take s.j ++ data ++ s.m_buffer.drop (s.j + data.length) } := by
  have hj : (s.m_count.1 >>> 3) &&& 63 = s.j := rfl
  have h1 : ¬ (s.j + data.length) % 2 ^ 32 > 63 := by
    rw [Nat.mod_eq_of_lt (by omega)]; omega
  have h2 : (data.length + 2 ^ 32 - 0) % 2 ^ 32 = data.length := by omega
  simp only [Update, hj, if_neg h1, h2]
  rw [memcpy_ok _ _ _ _ _ (by omega) (by omega)]
  simp [bind, Except.bind, pure, Except.pure]

/-- An `Update` that completes a block: the buffer is filled and
transformed, the following full blocks are transformed from `data`, the tail
goes to the front of the buffer. -/
theorem Update_cross (le : Bool) (s : CSHA1) (data : List Nat) (hb : s.m_buffer.length = 64)
    (h : 63 < s.j + data.length) (hw : s.j + data.length < 2 ^ 32) :
    Update le s data = .ok { (firstBlocks ((data.length - (64 - s.j)) / 64)
        (data.drop (64 - s.j))).foldl (CSHA1.Transform le)
        (CSHA1.Transform le { s with
            m_count := updateCount s.m_count data.length
            m_buffer := s.m_buffer.take s.j ++ data.take (64 - s.j) }
          (s.m_buffer.take s.j ++ data.take (64 - s.j))) with
      m_buffer := data.drop (64 - s.j + 64 * ((data.length - (64 - s.j)) / 64))
        ++ (s.m_buffer.take s.j ++ data.take (64 - s.j)).drop
          (data.length - (64 - s.j + 64 * ((data.length - (64 - s.j)) / 64))) } := by
  have hj : (s.m_count.1 >>> 3) &&& 63 = s.j := rfl
  have hj64 := j_lt s
  have h1 : (s.j + data.length) % 2 ^ 32 > 63 := by
    rw [Nat.mod_eq_of_lt hw]; omega
  simp only [Update, hj, if_pos h1]
  rw [memcpy_ok _ _ _ _ _ (by omega) (by omega)]
  have hdrop : s.m_buffer.drop (s.j + (64 - s.j)) = [] := by
    apply List.drop_eq_nil_of_le; omega
  simp only [bind, Except.bind, List.drop_zero, hdrop, List.append_nil]
  rw [UpdateLoop_spec le data ((data.length - (64 - s.j)) / 64) _ _ _ (by omega) (by omega)
    (by omega) (by omega)]
  simp only []
  have hlen : (data.length + 2 ^ 32 - (64 - s.j + 64 * ((data.length - (64 - s.j)) / 64))) % 2 ^ 32
      = data.length - (64 - s.j + 64 * ((data.length - (64 - s.j)) / 64)) := by omega
  rw [hlen, memcpy_ok _ _ _ _ _ (by
      rw [(frame_foldl le _ _).2]; simp [CSHA1.Transform]; omega) (by omega)]
  simp only [pure, Except.pure, List.take_zero, List.nil_append, Nat.zero_add,
    (frame_foldl le _ _).2]
  have ht : List.take (data.length - (64 - s.j + 64 * ((data.length - (64 - s.j)) / 64)))
      (List.drop (64 - s.j + 64 * ((data.length - (64 - s.j)) / 64)) data)
      = List.drop (64 - s.j + 64 * ((data.length - (64 - s.j)) / 64)) data :=
    List.take_of_length_le (by rw [List.length_drop])
  rw [ht]
  rfl

theorem residual_length (s : CSHA1) (hb : s.m_buffer.length = 64) : s.residual.length = s.j := by
  have := j_lt s
  simp [CSHA1.residual, hb]; omega

theorem j_set_count (s : CSHA1) (len : Nat) (buf : List Nat) (st : State) (w : Workspace)
    (t : Nat) :
    CSHA1.j ⟨st, updateCount s.m_count len, buf, w, t⟩ = (s.j + len) % 64 :=
  j_updateCount s len

theorem j_of_count (t s : CSHA1) (len : Nat) (h : t.m_count = updateCount s.m_count len) :
    t.j = (s.j + len) % 64 := by
  rw [CSHA1.j, h]; exact j_updateCount s len

/-- What a call of `Update` that stays below `2 ^ 32` does, in terms of the
pending stream `residual ++ data`: it returns, it transforms the full blocks
of the stream in order, it steps the counter, and it keeps the last bytes of
the stream as the new residual. -/
theorem Update_spec (le : Bool) (s : CSHA1) (data : List Nat) (hb : s.m_buffer.length = 64)
    (hw : s.j + data.length < 2 ^ 32) :
    ∃ s', Update le s data = .ok s'
      ∧ s'.core = (blocks (s.residual ++ data)).foldl (coreTransform le) s.core
      ∧ s'.m_count = updateCount s.m_count data.length
      ∧ s'.m_buffer.length = 64
      ∧ s'.residual = lastBytes (s.residual ++ data) := by
  have hj := j_lt s
  have hr := residual_length s hb
  by_cases h : s.j + data.length ≤ 63
  · have hm : (s.residual ++ data).length < 64 := by simp [hr]; omega
    refine ⟨_, Update_short le s data hb h, ?_, rfl, ?_, ?_⟩
    · rw [blocks_of_lt _ hm]; rfl
    · simp [hb]; omega
    · rw [lastBytes_of_lt _ hm, CSHA1.residual, j_set_count]
      have h64 : (s.j + data.length) % 64 = s.j + data.length := by omega
      rw [h64]
      exact List.take_left' (by rw [List.length_append, ← CSHA1.residual, hr])
  · have h1 : 63 < s.j + data.length := by omega
    have hm : 64 ≤ (s.residual ++ data).length := by simp [hr]; omega
    have hrl : s.residual.length ≤ 64 := by omega
    have htake : (s.residual ++ data).take 64 = s.m_buffer.take s.j ++ data.take (64 - s.j) := by
      rw [List.take_append_eq_append_take, List.take_of_length_le hrl, hr]; rfl
    have hdrop : (s.residual ++ data).drop 64 = data.drop (64 - s.j) := by
      rw [List.drop_append_eq_append_drop, List.drop_eq_nil_of_le hrl, hr]; rfl
    have hn : (data.length - (64 - s.j)) / 64 = ((s.residual ++ data).drop 64).length / 64 := by
      rw [hdrop, List.length_drop]
    refine ⟨_, Update_cross le s data hb h1 hw, ?_, ?_, ?_, ?_⟩
    · rw [blocks_of_ge _ hm, htake, hn, hdrop]
      show CSHA1.core (List.foldl (CSHA1.Transform le) _ _) = _
      rw [core_foldl]; rfl
    · show CSHA1.m_count (List.foldl (CSHA1.Transform le) _ _) = _
      rw [(frame_foldl le _ _).1]; rfl
    · simp; omega
    · rw [CSHA1.residual, j_of_count _ s data.length (by
        show CSHA1.m_count (List.foldl (CSHA1.Transform le) _ _) = _
        rw [(frame_foldl le _ _).1]; rfl)]
      have hl : lastBytes (s.residual ++ data)
          = data.drop (64 - s.j + 64 * ((data.length - (64 - s.j)) / 64)) := by
        rw [lastBytes, List.drop_append_eq_append_drop, List.drop_eq_nil_of_le, List.nil_append]
        · congr 1; simp [hr]; omega
        · simp [hr]; omega
      rw [hl]
      exact List.take_left' (by rw [List.length_drop]; omega)

theorem updateCount_fst_lt (c : Nat × Nat) (len : Nat) : (updateCount c len).1 < 2 ^ 32 := by
  simp only [updateCount]
  exact Nat.mod_lt _ (by norm_num)

theorem updateCount_add (c : Nat × Nat) (a b : Nat) (h0 : c.1 < 2 ^ 32) :
    updateCount (updateCount c a) b = updateCount c (a + b) := by
  obtain ⟨c0, c1⟩ := c
  simp only at h0
  rw [updateCount_eq c0 c1 a h0, updateCount_eq _ _ b (Nat.mod_lt _ (by norm_num)),
    updateCount_eq c0 c1 (a + b) h0]
  ext <;> simp <;> omega

/-- Chunking invariance below the 32-bit wrap: when `j + |a| + |b| < 2 ^ 32`,
`Update(a)` followed by `Update(b)` returns, and so does `Update(a ++ b)`,
with the same state words, counter words, buffered residual, workspace and
number of `Transform` calls. -/
theorem Update_append (le : Bool) (s : CSHA1) (a b : List Nat) (hb : s.m_buffer.length = 64)
    (hc : s.m_count.1 < 2 ^ 32) (hw : s.j + (a.length + b.length) < 2 ^ 32) :
    ∃ s1 s2 s12, Update le s a = .ok s1 ∧ Update le s1 b = .ok s2
      ∧ Update le s (a ++ b) = .ok s12
      ∧ s2.m_state = s12.m_state ∧ s2.m_count = s12.m_count ∧ s2.residual = s12.residual
      ∧ s2.m_block = s12.m_block ∧ s2.transforms = s12.transforms := by
  obtain ⟨s1, h1, hcore1, hcount1, hbuf1, hres1⟩ := Update_spec le s a hb (by omega)
  have hj1 : s1.j = (s.j + a.length) % 64 := j_of_count s1 s a.length hcount1
  obtain ⟨s2, h2, hcore2, hcount2, _, hres2⟩ := Update_spec le s1 b hbuf1 (by omega)
  obtain ⟨s12, h12, hcore12, hcount12, _, hres12⟩ :=
    Update_spec le s (a ++ b) hb (by simp; omega)
  have hcore : s2.core = s12.core := by
    rw [hcore2, hcore12, hcore1, hres1, ← List.foldl_append, ← List.append_assoc,
      ← blocks_append b _ _ rfl]
  refine ⟨s1, s2, s12, h1, h2, h12, congrArg (·.1) hcore, ?_, ?_, congrArg (·.2.1) hcore,
    congrArg (·.2.2) hcore⟩
  · rw [hcount2, hcount12, hcount1, updateCount_add _ _ _ hc, List.length_append]
  · rw [hres2, hres12, hres1, ← List.append_assoc, ← lastBytes_append b _ _ rfl]

/-- A call of `Update` whose `j + len` reaches `2 ^ 32` takes the branch for
short input, because the 32-bit sum wraps below 64, and copies `len` bytes to
`m_buffer + j`, past the end of the buffer. -/
theorem Update_wrap (le : Bool) (s : CSHA1) (data : List Nat) (hb : s.m_buffer.length = 64)
    (hl : data.length < 2 ^ 32) (hw : 2 ^ 32 ≤ s.j + data.length) :
    Update le s data = .error .bufferOverflow := by
  have hj : (s.m_count.1 >>> 3) &&& 63 = s.j := rfl
  have hj64 := j_lt s
  have h1 : ¬ (s.j + data.length) % 2 ^ 32 > 63 := by omega
  have h2 : (data.length + 2 ^ 32 - 0) % 2 ^ 32 = data.length := by omega
  simp only [Update, hj, if_neg h1, h2]
  rw [memcpy, if_pos (by omega)]
  rfl

theorem UpdateAll_spec (le : Bool) (chunks : List (List Nat)) :
    ∀ s : CSHA1, s.m_buffer.length = 64 → (∀ c ∈ chunks, c.length + 63 < 2 ^ 32) →
      ∃ s', UpdateAll le s chunks = .ok s'
        ∧ s'.core = (blocks (s.residual ++ chunks.flatten)).foldl (coreTransform le) s.core
        ∧ s'.m_count = (chunks.map List.length).foldl updateCount s.m_count
        ∧ s'.m_buffer.length = 64
        ∧ s'.residual = lastBytes (s.residual ++ chunks.flatten) := by
  induction chunks with
  | nil =>
    intro s hb _
    have hr := residual_length s hb
    have hj := j_lt s
    have hm : (s.residual ++ ([] : List (List Nat)).flatten).length < 64 := by simp [hr]; omega
    refine ⟨s, rfl, ?_, rfl, hb, ?_⟩
    · rw [blocks_of_lt _ hm]; rfl
    · rw [lastBytes_of_lt _ hm]; simp
  | cons c cs ih =>
    intro s hb hc
    have hj := j_lt s
    have hcl := hc c (List.mem_cons_self _ _)
    obtain ⟨s1, h1, hcore1, hcount1, hbuf1, hres1⟩ := Update_spec le s c hb (by omega)
    obtain ⟨s', h', hcore', hcount', hbuf', hres'⟩ :=
      ih s1 hbuf1 (fun x hx => hc x (List.mem_cons_of_mem _ hx))
    refine ⟨s', ?_, ?_, ?_, hbuf', ?_⟩
    · simp only [UpdateAll, h1, bind, Except.bind]; exact h'
    · rw [hcore', hcore1, hres1, ← List.foldl_append, List.flatten_cons, ← List.append_assoc,
        ← blocks_append _ _ _ rfl]
    · rw [hcount', hcount1]; rfl
    · rw [hres', hres1, List.flatten_cons, ← List.append_assoc, ← lastBytes_append _ _ _ rfl]

theorem firstBlocks_length (n : Nat) : ∀ m : List Nat, (firstBlocks n m).length = n := by
  induction n with
  | zero => intro m; rfl
  | succ n ih => intro m; simp [firstBlocks, ih]

theorem blocks_length (m : List Nat) : (blocks m).length = m.length / 64 :=
  firstBlocks_length _ m

theorem foldl_coreTransform_count (le : Bool) (bs : List (List Nat))
    (c : State × Workspace × Nat) :
    (bs.foldl (coreTransform le) c).2.2 = c.2.2 + bs.length := by
  induction bs generalizing c with
  | nil => rfl
  | cons b bs ih => rw [List.foldl_cons, ih]; simp [coreTransform]; omega

/-- Streaming equals block-wise folding below the 32-bit wrap: after `Reset`,
a sequence of `Update` calls of at most `2 ^ 32 - 64` bytes each returns; the
state is the left fold of `Transform` over the blocks of the concatenated
input, one `Transform` call per block; the residual is the last
`|m| % 64 < 64` bytes of the input. -/
theorem UpdateAll_Reset (le : Bool) (s : CSHA1) (chunks : List (List Nat))
    (hb : s.m_buffer.length = 64) (hc : ∀ c ∈ chunks, c.length + 63 < 2 ^ 32) :
    ∃ s', UpdateAll le (Reset s) chunks = .ok s'
      ∧ s'.m_state = ((blocks chunks.flatten).foldl (CSHA1.Transform le) (Reset s)).m_state
      ∧ s'.transforms = s.transforms + chunks.flatten.length / 64
      ∧ s'.residual = lastBytes chunks.flatten
      ∧ s'.residual.length = chunks.flatten.length % 64
      ∧ s'.residual.length < 64 := by
  obtain ⟨s', h', hcore, _, _, hres⟩ := UpdateAll_spec le chunks (Reset s) hb hc
  have hr : (Reset s).residual = [] := by simp [CSHA1.residual, CSHA1.j, Reset]
  rw [hr, List.nil_append] at hcore hres
  refine ⟨s', h', ?_, ?_, hres, ?_, ?_⟩
  · have := congrArg (·.1) hcore
    rw [← core_foldl] at this
    exact this
  · have := congrArg (·.2.2) hcore
    simp only [foldl_coreTransform_count, blocks_length] at this
    exact this
  · rw [hres, lastBytes_length]
  · rw [hres, lastBytes_length]; omega

/-! ## Update at the 32-bit boundary, and with no data -/

theorem UpdateAll_cons_ok (le : Bool) (s s1 : CSHA1) (c : List Nat) (cs : List (List Nat))
    (h : Update le s c = .ok s1) : UpdateAll le s (c :: cs) = UpdateAll le s1 cs := by
  simp only [UpdateAll, h, bind, Except.bind]

theorem UpdateAll_cons_error (le : Bool) (s : CSHA1) (c : List Nat) (cs : List (List Nat))
    (e : Fault) (h : Update le s c = .error e) : UpdateAll le s (c :: cs) = .error e := by
  simp only [UpdateAll, h, bind, Except.bind]

/-- C1: with 63 bytes buffered, one `Update` of `2 ^ 32 - 1` bytes writes past
`m_buffer` (the 32-bit sum `j + len` wraps to 62, so the short-input branch
copies all of `data` to `m_buffer + 63`), while the same bytes split as 1
byte and `2 ^ 32 - 2` bytes are absorbed by two calls that both return. -/
theorem chunking_breaks_at_wrap :
    Update true (buffered 63) ([0] ++ List.replicate (2 ^ 32 - 2) 0) = .error .bufferOverflow
      ∧ ∃ s1 s2, Update true (buffered 63) [0] = .ok s1
        ∧ Update true s1 (List.replicate (2 ^ 32 - 2) 0) = .ok s2 := by
  have hb : (buffered 63).m_buffer.length = 64 := by decide
  have hj : (buffered 63).j = 63 := by decide
  have hlen : ([0] ++ List.replicate (2 ^ 32 - 2) 0).length = 2 ^ 32 - 1 := by
    rw [List.length_append, List.length_replicate]; rfl
  have hlen2 : (List.replicate (2 ^ 32 - 2) 0).length = 2 ^ 32 - 2 := List.length_replicate _ _
  refine ⟨Update_wrap true _ _ hb (by rw [hlen]; norm_num) (by rw [hj, hlen]; norm_num), ?_⟩
  obtain ⟨s1, h1, _, hcount1, hbuf1, _⟩ :=
    Update_spec true (buffered 63) [0] hb (by rw [hj]; decide)
  have hj1 : s1.j = 0 := by rw [j_of_count s1 _ _ hcount1, hj]; rfl
  obtain ⟨s2, h2, _⟩ := Update_spec true s1 (List.replicate (2 ^ 32 - 2) 0) hbuf1
    (by rw [hj1, hlen2]; norm_num)
  exact ⟨s1, s2, h1, h2⟩

/-- C3: after `Reset` and an `Update` of one byte, an `Update` of
`2 ^ 32 - 1` bytes writes past `m_buffer` and no state results; absorbing 63
bytes and then 1 byte runs one `Transform` and leaves no byte buffered. -/
theorem streaming_breaks_at_wrap :
    UpdateAll true (Reset zeroEngine) [[0], List.replicate (2 ^ 32 - 1) 0]
        = .error .bufferOverflow
      ∧ (UpdateAll true (Reset zeroEngine) [List.replicate 63 7, [9]]).toOption.map
        (fun s => (s.transforms, s.residual)) = some (1, []) := by
  refine ⟨?_, by decide⟩
  have hb : (Reset zeroEngine).m_buffer.length = 64 := by decide
  have hlen : (List.replicate (2 ^ 32 - 1) 0).length = 2 ^ 32 - 1 := List.length_replicate _ _
  obtain ⟨s1, h1, _, hcount1, hbuf1, _⟩ :=
    Update_spec true (Reset zeroEngine) [0] hb (by decide)
  have hj1 : s1.j = 1 := by rw [j_of_count s1 _ _ hcount1]; decide
  have h2 := Update_wrap true s1 (List.replicate (2 ^ 32 - 1) 0) hbuf1
    (by rw [hlen]; norm_num) (by rw [hj1, hlen]; norm_num)
  rw [UpdateAll_cons_ok _ _ _ _ _ h1, UpdateAll_cons_error _ _ _ _ _ h2]

/-- C5: with one byte buffered, `Update` of `2 ^ 32 - 1` bytes, a length the
32-bit parameter holds, writes past the 64 bytes of `m_buffer`, on either byte
order. -/
theorem Update_overflows_buffer :
    Update true (buffered 1) (List.replicate (2 ^ 32 - 1) 0) = .error .bufferOverflow
      ∧ Update false (buffered 1) (List.replicate (2 ^ 32 - 1) 0) = .error .bufferOverflow := by
  have hb : (buffered 1).m_buffer.length = 64 := by decide
  have hj : (buffered 1).j = 1 := by decide
  have hlen : (List.replicate (2 ^ 32 - 1) 0).length = 2 ^ 32 - 1 := List.length_replicate _ _
  exact ⟨Update_wrap true _ _ hb (by rw [hlen]; norm_num) (by rw [hj, hlen]; norm_num),
    Update_wrap false _ _ hb (by rw [hlen]; norm_num) (by rw [hj, hlen]; norm_num)⟩

/-- C10: `Update` with `len = 0` returns the engine it was given: the state
words, both counter words, all 64 bytes of `m_buffer` and the workspace are
unchanged, and the count of `Transform` calls is unchanged, so none ran. -/
theorem Update_nil (le : Bool) (s : CSHA1) (hb : s.m_buffer.length = 64)
    (h0 : s.m_count.1 < 2 ^ 32) (h1 : s.m_count.2 < 2 ^ 32) :
    Update le s [] = .ok s := by
  have hj := j_lt s
  rw [Update_short le s [] hb (by simp; omega)]
  obtain ⟨st, ⟨c0, c1⟩, buf, w, t⟩ := s
  simp only at h0 h1
  have hc : updateCount (c0, c1) 0 = (c0, c1) := by
    rw [updateCount_eq c0 c1 0 h0]
    ext <;> simp <;> omega
  simp [hc]

theorem Update_nil_witness : Update true (buffered 5) [] = .ok (buffered 5) :=
  Update_nil true (buffered 5) (by decide) (by decide) (by decide)

theorem updateCount_snd_lt (c : Nat × Nat) (len : Nat) : (updateCount c len).2 < 2 ^ 32 := by
  simp only [updateCount]
  exact Nat.mod_lt _ (by norm_num)

/-- C13: `Reset` applied twice yields exactly the engine that `Reset` applied
once yields, for every engine state. -/
theorem Reset_idempotent (s : CSHA1) : Reset (Reset s) = Reset s := rfl

/-! ## Short absorb -/

/-- C14: when `j + len < 64`, `Update` returns, runs no `Transform`, keeps
the five state words, writes `data` to `m_buffer[j .. j + len - 1]` and keeps
every other byte of the 64 bytes of `m_buffer`. -/
theorem Update_short_append (le : Bool) (s : CSHA1) (data : List Nat)
    (hb : s.m_buffer.length = 64) (h : s.j + data.length < 64) :
    ∃ s', Update le s data = .ok s'
      ∧ s'.transforms = s.transforms
      ∧ s'.m_state = s.m_state
      ∧ s'.m_buffer.length = 64
      ∧ (∀ k, k < data.length → s'.m_buffer[s.j + k]? = data[k]?)
      ∧ (∀ k, k < s.j ∨ s.j + data.length ≤ k → s'.m_buffer[k]? = s.m_buffer[k]?) := by
  refine ⟨_, Update_short le s data hb (by omega), rfl, rfl, ?_, ?_, ?_⟩
  · simp [hb]; omega
  · intro k hk
    have hl : (s.m_buffer.take s.j).length = s.j := by simp [hb]; omega
    show (s.m_buffer.take s.j ++ data ++ s.m_buffer.drop (s.j + data.length))[s.j + k]? = _
    rw [List.append_assoc, List.getElem?_append_right (by omega), hl,
      List.getElem?_append_left (by omega)]
    congr 1; omega
  · intro k hk
    have hl : (s.m_buffer.take s.j).length = s.j := by simp [hb]; omega
    show (s.m_buffer.take s.j ++ data ++ s.m_buffer.drop (s.j + data.length))[k]? = _
    rcases hk with hk | hk
    · rw [List.append_assoc, List.getElem?_append_left (by omega), List.getElem?_take_of_lt hk]
    · rw [List.getElem?_append_right (by simp [hl]; omega), List.getElem?_drop]
      congr 1; simp [hl]; omega

theorem Update_short_append_witness :
    ∃ s', Update true (buffered 5) [1, 2, 3] = .ok s'
      ∧ s'.transforms = (buffered 5).transforms
      ∧ s'.m_state = (buffered 5).m_state
      ∧ s'.m_buffer.length = 64
      ∧ (∀ k, k < [1, 2, 3].length → s'.m_buffer[(buffered 5).j + k]? = [1, 2, 3][k]?)
      ∧ (∀ k, k < (buffered 5).j ∨ (buffered 5).j + [1, 2, 3].length ≤ k →
          s'.m_buffer[k]? = (buffered 5).m_buffer[k]?) :=
  Update_short_append true (buffered 5) [1, 2, 3] (by decide) (by decide)

/-! ## What Transform reads -/

theorem loadBlock_congr (le : Bool) (l l' : Workspace) (buffer : List Nat)
    (h : ∀ k, 16 ≤ k → l k = l' k) : loadBlock le l buffer = loadBlock le l' buffer := by
  funext k
  simp only [loadBlock]
  split
  · rfl
  · exact h k (by omega)

/-- `Transform` reads its workspace argument only at the words 16 and above,
those that follow the sixteen words it copies from the block. -/
theorem Transform_congr (le : Bool) (state : State) (l l' : Workspace) (buffer : List Nat)
    (h : ∀ k, 16 ≤ k → l k = l' k) :
    Transform le state l buffer = Transform le state l' buffer := by
  simp only [Transform, loadBlock_congr le l l' buffer h]

/-- A round leaves every word of the workspace outside `roundIndices`. -/
theorem roundBlk_frame (le : Bool) (l : Workspace) (i k : Nat) (hk : k ∉ roundIndices i) :
    (roundBlk le l i).2 k = l k := by
  simp only [roundIndices, SHABLK0_indices, SHABLK_indices] at hk
  simp only [roundBlk, SHABLK0, SHABLK]
  split_ifs at hk ⊢ <;> simp_all [Workspace.set]

/-- The schedule word of a round depends on the workspace only at
`roundIndices`. -/
theorem roundBlk_reads (le : Bool) (l l' : Workspace) (i : Nat)
    (h : ∀ k ∈ roundIndices i, l k = l' k) : (roundBlk le l i).1 = (roundBlk le l' i).1 := by
  simp only [roundIndices, SHABLK0_indices, SHABLK_indices] at h
  simp only [roundBlk, SHABLK0, SHABLK]
  split_ifs at h ⊢ <;> simp_all

/-- C15: with the same state and the same all-zero block, `Transform` gives
different state words when word 16 of `m_block->l`, the memory just past the
workspace, is 1 instead of 0, on either byte order; different contents of the
sixteen workspace words give the same state words. -/
theorem Transform_reads_past_workspace :
    (Transform true initialState (fun _ => 0) (List.replicate 64 0)).1
        ≠ (Transform true initialState oneAfterWorkspace (List.replicate 64 0)).1
      ∧ (Transform false initialState (fun _ => 0) (List.replicate 64 0)).1
        ≠ (Transform false initialState oneAfterWorkspace (List.replicate 64 0)).1
      ∧ (Transform true initialState (fun _ => 0) (List.replicate 64 0)).1
        = (Transform true initialState sevensInWorkspace (List.replicate 64 0)).1 :=
  ⟨by decide, by decide, by decide⟩

/-- C16: the rounds of `Transform` that touch a workspace index of 16 or more
are rounds 16, 17, 18 and 19, which touch `l[16]`, `l[17]`, `l[18]` and
`l[19]`; round 16 consumes the word at index 16 as its schedule word. -/
theorem rounds_16_to_19_out_of_bounds :
    (List.range 80).filter (fun i => (roundIndices i).any (fun k => decide (16 ≤ k)))
        = [16, 17, 18, 19]
      ∧ (((List.range 80).map roundIndices).drop 16).take 4 = [[16], [17], [18], [19]]
      ∧ scheduleWord false (fun k => 100 + k) (List.replicate 64 0) 16 = 116 :=
  ⟨by decide, by decide, by decide⟩

/-! ## HashFile -/

/-- A read that returns no byte ends `HashFile` with `true`, whatever its
error indicator is. -/
theorem HashFile_zero_read (le : Bool) (s : CSHA1) (e : Bool) (rs : List Read) :
    HashFile le s (some (⟨[], e⟩ :: rs)) = .ok (true, s) := rfl

/-- A first read that returns bytes with the error indicator set makes
`HashFile` throw "Error reading from file". -/
theorem HashFile_read_error (le : Bool) (s : CSHA1) (b : Nat) (bs : List Nat) (rs : List Read) :
    HashFile le s (some (⟨b :: bs, true⟩ :: rs)) = .error .errorReading := rfl

/-- C12: a first `fread` that reports an I/O error and returns 0 bytes ends
the loop of `HashFile`, which returns `true` with the engine untouched; the
same error on a read that returns 3 bytes makes it throw "Error reading from
file". -/
theorem HashFile_misses_error_on_empty_read :
    HashFile true zeroEngine (some [⟨[], true⟩]) = .ok (true, zeroEngine)
      ∧ HashFile true zeroEngine (some [⟨[1, 2, 3], true⟩]) = .error .errorReading :=
  ⟨rfl, rfl⟩

/-! ## The direct-block loop -/

theorem foldl_Transform_count (le : Bool) (bs : List (List Nat)) (s : CSHA1) :
    (bs.foldl (CSHA1.Transform le) s).transforms = s.transforms + bs.length := by
  have h := congrArg (·.2.2) (core_foldl le bs s)
  simp only [foldl_coreTransform_count] at h
  exact h

/-- C18: in the block-crossing branch of `Update` (`j < 64`, `len < 2 ^ 32`,
`(j + len) mod 2 ^ 32 > 63`) the loop `for (; i + 63 < len; i += 64)` started
at `i = 64 - j` ends within the bound `len / 64`: it makes
`n = (len - (64 - j)) / 64 ≤ len / 64` iterations, one `Transform` each, on
the consecutive blocks of `data` from `64 - j`, and ends at `i = 64 - j + 64 n`;
every `i + 63` it tests and every `i + 64` it assigns stays below `2 ^ 32`. -/
theorem direct_loop_terminates (le : Bool) (s : CSHA1) (data : List Nat) (j : Nat)
    (hj : j < 64) (hl : data.length < 2 ^ 32) (hc : (j + data.length) % 2 ^ 32 > 63) :
    ∃ n, n ≤ data.length / 64
      ∧ UpdateLoop le data data.length (data.length / 64) (64 - j) s
        = .ok (64 - j + 64 * n,
            (firstBlocks n (data.drop (64 - j))).foldl (CSHA1.Transform le) s)
      ∧ ((firstBlocks n (data.drop (64 - j))).foldl (CSHA1.Transform le) s).transforms
        = s.transforms + n
      ∧ (∀ k, k ≤ n → 64 - j + 64 * k + 63 < 2 ^ 32)
      ∧ (∀ k, k < n → 64 - j + 64 * k + 64 < 2 ^ 32) := by
  have hw : j + data.length < 2 ^ 32 := by omega
  have h63 : 63 < j + data.length := by omega
  refine ⟨(data.length - (64 - j)) / 64, by omega, ?_, ?_, ?_, ?_⟩
  · exact UpdateLoop_spec le data _ _ _ s (by omega) (by omega) (by omega) (by omega)
  · rw [foldl_Transform_count, firstBlocks_length]
  · intro k hk; omega
  · intro k hk; omega

theorem direct_loop_terminates_witness :
    ∃ n, n ≤ (List.replicate 200 7).length / 64
      ∧ UpdateLoop true (List.replicate 200 7) (List.replicate 200 7).length
          ((List.replicate 200 7).length / 64) (64 - 5) (buffered 5)
        = .ok (64 - 5 + 64 * n,
            (firstBlocks n ((List.replicate 200 7).drop (64 - 5))).foldl (CSHA1.Transform true)
              (buffered 5))
      ∧ ((firstBlocks n ((List.replicate 200 7).drop (64 - 5))).foldl (CSHA1.Transform true)
          (buffered 5)).transforms = (buffered 5).transforms + n
      ∧ (∀ k, k ≤ n → 64 - 5 + 64 * k + 63 < 2 ^ 32)
      ∧ (∀ k, k < n → 64 - 5 + 64 * k + 64 < 2 ^ 32) :=
  direct_loop_terminates true (buffered 5) (List.replicate 200 7) 5 (by decide) (by decide)
    (by decide)

/-! ## Block loading -/

theorem ROL32_or (x y n : Nat) : ROL32 (x ||| y) n = ROL32 x n ||| ROL32 y n := by
  apply Nat.eq_of_testBit_eq
  intro i
  simp only [ROL32, Nat.testBit_or, Nat.testBit_mod_two_pow, Nat.testBit_shiftLeft,
    Nat.testBit_shiftRight]
  cases decide (i < 32) <;> cases decide (i ≥ n) <;> cases x.testBit (i - n)
    <;> cases y.testBit (i - n) <;> cases x.testBit (32 - n + i)
    <;> cases y.testBit (32 - n + i) <;> rfl

theorem byteSwap_or (x y : Nat) : byteSwap (x ||| y) = byteSwap x ||| byteSwap y := by
  simp only [byteSwap, ROL32_or, Nat.and_distrib_right]
  apply Nat.eq_of_testBit_eq
  intro i
  simp only [Nat.testBit_or]
  cases (ROL32 x 24 &&& 0xFF00FF00).testBit i <;> cases (ROL32 y 24 &&& 0xFF00FF00).testBit i
    <;> cases (ROL32 x 8 &&& 0x00FF00FF).testBit i
    <;> cases (ROL32 y 8 &&& 0x00FF00FF).testBit i <;> rfl

theorem byteSwap_byte : ∀ b, b < 256 → byteSwap b = b <<< 24 ∧ byteSwap (b <<< 8) = b <<< 16
    ∧ byteSwap (b <<< 16) = b <<< 8 ∧ byteSwap (b <<< 24) = b := by
  decide

theorem bytes_or (b0 b1 b2 b3 : Nat) (h0 : b0 < 256) (h1 : b1 < 256) (h2 : b2 < 256) :
    b0 + b1 * 2 ^ 8 + b2 * 2 ^ 16 + b3 * 2 ^ 24
      = b0 ||| b1 <<< 8 ||| b2 <<< 16 ||| b3 <<< 24 := by
  have e1 : b0 ||| b1 <<< 8 = b0 + b1 * 2 ^ 8 := by
    rw [Nat.or_comm, Nat.shiftLeft_eq, Nat.mul_comm, ← Nat.mul_add_lt_is_or (by omega)]
    omega
  have e2 : b0 + b1 * 2 ^ 8 ||| b2 <<< 16 = b0 + b1 * 2 ^ 8 + b2 * 2 ^ 16 := by
    rw [Nat.or_comm, Nat.shiftLeft_eq, Nat.mul_comm, ← Nat.mul_add_lt_is_or (by omega)]
    omega
  have e3 : b0 + b1 * 2 ^ 8 + b2 * 2 ^ 16 ||| b3 <<< 24
      = b0 + b1 * 2 ^ 8 + b2 * 2 ^ 16 + b3 * 2 ^ 24 := by
    rw [Nat.or_comm, Nat.shiftLeft_eq, Nat.mul_comm, ← Nat.mul_add_lt_is_or (by omega)]
    omega
  rw [e1, e2, e3]

/-- The byte swap of `SHABLK0` turns the little-endian word of four bytes
into their big-endian word. -/
theorem byteSwap_hostWord (b0 b1 b2 b3 : Nat) (h0 : b0 < 256) (h1 : b1 < 256) (h2 : b2 < 256)
    (h3 : b3 < 256) :
    byteSwap (hostWord true b0 b1 b2 b3) = b0 * 2 ^ 24 + b1 * 2 ^ 16 + b2 * 2 ^ 8 + b3 := by
  have e := bytes_or b3 b2 b1 b0 h3 h2 h1
  simp only [hostWord, if_true]
  rw [bytes_or b0 b1 b2 b3 h0 h1 h2, byteSwap_or, byteSwap_or, byteSwap_or,
    (byteSwap_byte b0 h0).1, (byteSwap_byte b1 h1).2.1, (byteSwap_byte b2 h2).2.2.1,
    (byteSwap_byte b3 h3).2.2.2]
  have e' : b0 <<< 24 ||| b1 <<< 16 ||| b2 <<< 8 ||| b3
      = b3 ||| b2 <<< 8 ||| b1 <<< 16 ||| b0 <<< 24 := by
    apply Nat.eq_of_testBit_eq
    intro i
    simp only [Nat.testBit_or]
    cases (b0 <<< 24).testBit i <;> cases (b1 <<< 16).testBit i <;> cases (b2 <<< 8).testBit i
      <;> cases b3.testBit i <;> rfl
  rw [e', ← e]
  omega

theorem div_bytes (x : Nat) : x / 65536 = x / 256 / 256 ∧ x / 16777216 = x / 256 / 256 / 256 := by
  constructor <;> simp only [Nat.div_div_eq_div_mul]

/-- The byte swap reverses the four bytes of a 32-bit word. -/
theorem byteSwap_eq (x : Nat) (hx : x < 2 ^ 32) :
    byteSwap x = x % 256 * 2 ^ 24 + x / 256 % 256 * 2 ^ 16 + x / 65536 % 256 * 2 ^ 8
      + x / 16777216 := by
  have hq1 : ∃ q1, x / 256 = q1 := ⟨_, rfl⟩
  obtain ⟨q1, hq1⟩ := hq1
  have hq2 : ∃ q2, q1 / 256 = q2 := ⟨_, rfl⟩
  obtain ⟨q2, hq2⟩ := hq2
  have hq3 : ∃ q3, q2 / 256 = q3 := ⟨_, rfl⟩
  obtain ⟨q3, hq3⟩ := hq3
  rw [(div_bytes x).1, (div_bytes x).2, hq1, hq2, hq3]
  have h := byteSwap_hostWord (x % 256) (q1 % 256) (q2 % 256) q3
    (by omega) (by omega) (by omega) (by omega)
  have e : hostWord true (x % 256) (q1 % 256) (q2 % 256) q3 = x := by
    simp only [hostWord, if_true]; omega
  rw [e] at h
  exact h

theorem byteSwap_lt (x : Nat) (hx : x < 2 ^ 32) : byteSwap x < 2 ^ 32 := by
  rw [byteSwap_eq x hx]; omega

theorem byteSwap_byteSwap (x : Nat) (hx : x < 2 ^ 32) : byteSwap (byteSwap x) = x := by
  have h1 := byteSwap_eq x hx
  rw [(div_bytes x).1, (div_bytes x).2] at h1
  obtain ⟨q1, hq1⟩ : ∃ q1, x / 256 = q1 := ⟨_, rfl⟩
  obtain ⟨q2, hq2⟩ : ∃ q2, q1 / 256 = q2 := ⟨_, rfl⟩
  obtain ⟨q3, hq3⟩ : ∃ q3, q2 / 256 = q3 := ⟨_, rfl⟩
  rw [hq1, hq2, hq3] at h1
  have e : byteSwap x = hostWord true q3 (q2 % 256) (q1 % 256) (x % 256) := by
    rw [h1]; simp only [hostWord, if_true]; omega
  rw [e, byteSwap_hostWord _ _ _ _ (by omega) (by omega) (by omega) (by omega)]
  omega

theorem workspaceAt_succ (le : Bool) (l : Workspace) (block : List Nat) (t : Nat) :
    workspaceAt le l block (t + 1) = (roundBlk le (workspaceAt le l block t) t).2 := by
  simp only [workspaceAt, List.range_succ, List.foldl_append, List.foldl_cons, List.foldl_nil]

/-- The rounds before round `t ≤ 20` leave the words from `t` on as the block
copy left them. -/
theorem workspaceAt_ge (le : Bool) (l : Workspace) (block : List Nat) :
    ∀ t, t ≤ 20 → ∀ k, t ≤ k → workspaceAt le l block t k = loadBlock le l block k := by
  intro t
  induction t with
  | zero => intro _ k _; rfl
  | succ t ih =>
    intro ht k hk
    rw [workspaceAt_succ, roundBlk_frame le _ t k (by
      simp only [roundIndices, SHABLK0_indices, if_pos (show t < 20 by omega)]
      simp; omega)]
    exact ih (by omega) k (by omega)

theorem getD_lt_256 (block : List Nat) (hb : ∀ b ∈ block, b < 256) (n : Nat) :
    block.getD n 0 < 256 := by
  rw [List.getD_eq_getElem?_getD]
  cases h : block[n]? with
  | none => simp
  | some b => simpa using hb b (List.getElem?_mem h)

/-- C17: for a block of bytes and every `i < 16`, the schedule word consumed
in round `i` is `block[4i] * 2^24 + block[4i+1] * 2^16 + block[4i+2] * 2^8 +
block[4i+3]`, on either byte order; the expression of the little-endian
`SHABLK0` reverses the four bytes of every 32-bit word and is an involution,
and the big-endian `SHABLK0` uses the word unchanged. -/
theorem block_loading_big_endian (le : Bool) (l : Workspace) (block : List Nat) (i : Nat)
    (hi : i < 16) (hb : ∀ b ∈ block, b < 256) :
    scheduleWord le l block i
        = block.getD (4 * i) 0 * 2 ^ 24 + block.getD (4 * i + 1) 0 * 2 ^ 16
          + block.getD (4 * i + 2) 0 * 2 ^ 8 + block.getD (4 * i + 3) 0
      ∧ (∀ x, x < 2 ^ 32 →
          byteSwap x = x % 256 * 2 ^ 24 + x / 256 % 256 * 2 ^ 16 + x / 65536 % 256 * 2 ^ 8
            + x / 16777216
          ∧ byteSwap (byteSwap x) = x)
      ∧ (∀ (w : Workspace) (k : Nat),
          (SHABLK0 true w k).1 = byteSwap (w k) ∧ (SHABLK0 false w k).1 = w k) := by
  refine ⟨?_, fun x hx => ⟨byteSwap_eq x hx, byteSwap_byteSwap x hx⟩, fun w k => ⟨rfl, rfl⟩⟩
  have hw := workspaceAt_ge le l block i (by omega) i (Nat.le_refl i)
  have hl : loadBlock le l block i = hostWord le (block.getD (4 * i) 0)
      (block.getD (4 * i + 1) 0) (block.getD (4 * i + 2) 0) (block.getD (4 * i + 3) 0) := by
    simp only [loadBlock, if_pos hi]
  simp only [scheduleWord, roundBlk, if_pos (show i < 20 by omega)]
  cases le with
  | false =>
    show workspaceAt false l block i i = _
    rw [hw, hl]; rfl
  | true =>
    show byteSwap (workspaceAt true l block i i) = _
    rw [hw, hl]
    exact byteSwap_hostWord _ _ _ _ (getD_lt_256 block hb _) (getD_lt_256 block hb _)
      (getD_lt_256 block hb _) (getD_lt_256 block hb _)

theorem block_loading_big_endian_witness :
    scheduleWord true (fun _ => 0) sampleBlock 1
        = sampleBlock.getD (4 * 1) 0 * 2 ^ 24 + sampleBlock.getD (4 * 1 + 1) 0 * 2 ^ 16
          + sampleBlock.getD (4 * 1 + 2) 0 * 2 ^ 8 + sampleBlock.getD (4 * 1 + 3) 0
      ∧ (∀ x, x < 2 ^ 32 →
          byteSwap x = x % 256 * 2 ^ 24 + x / 256 % 256 * 2 ^ 16 + x / 65536 % 256 * 2 ^ 8
            + x / 16777216
          ∧ byteSwap (byteSwap x) = x)
      ∧ (∀ (w : Workspace) (k : Nat),
          (SHABLK0 true w k).1 = byteSwap (w k) ∧ (SHABLK0 false w k).1 = w k) :=
  block_loading_big_endian true (fun _ => 0) sampleBlock 1 (by decide) (by decide)

/-! ## Reset and what came before it -/

theorem foldl_coreTransform_alike (le : Bool) (bs : List (List Nat)) :
    ∀ c c' : State × Workspace × Nat, c.1 = c'.1 → (∀ k, 16 ≤ k → c.2.1 k = c'.2.1 k) →
      (bs.foldl (coreTransform le) c).1 = (bs.foldl (coreTransform le) c').1
        ∧ ∀ k, 16 ≤ k → (bs.foldl (coreTransform le) c).2.1 k
          = (bs.foldl (coreTransform le) c').2.1 k := by
  induction bs with
  | nil => intro c c' h1 h2; exact ⟨h1, h2⟩
  | cons b bs ih =>
    intro c c' h1 h2
    have ht : Transform le c.1 c.2.1 b = Transform le c'.1 c'.2.1 b := by
      rw [h1]; exact Transform_congr le _ _ _ b h2
    simp only [List.foldl_cons]
    apply ih
    · simp only [coreTransform, ht]
    · intro k _; simp only [coreTransform, ht]

theorem j_eq_of_count (s t : CSHA1) (h : s.m_count = t.m_count) : s.j = t.j := by
  simp only [CSHA1.j, h]

/-- `Update` on two engines that are alike: both calls fault in the same way,
or both return engines that are alike. -/
theorem Update_alike (le : Bool) (s t : CSHA1) (data : List Nat) (h : s.alike t)
    (hl : data.length < 2 ^ 32) :
    (∃ e, Update le s data = .error e ∧ Update le t data = .error e)
      ∨ ∃ s' t', Update le s data = .ok s' ∧ Update le t data = .ok t' ∧ s'.alike t' := by
  obtain ⟨hst, hcnt, hres, hbs, hbt, hblk⟩ := h
  have hj := j_eq_of_count s t hcnt
  by_cases hw : s.j + data.length < 2 ^ 32
  · right
    obtain ⟨s', hs', hcore, hcount, hbuf, hr⟩ := Update_spec le s data hbs hw
    obtain ⟨t', ht', hcore', hcount', hbuf', hr'⟩ := Update_spec le t data hbt (by omega)
    have hsim := foldl_coreTransform_alike le (blocks (s.residual ++ data)) s.core t.core hst hblk
    rw [← hres] at hcore' hr'
    rw [← hcore, ← hcore'] at hsim
    exact ⟨s', t', hs', ht', hsim.1, by rw [hcount, hcount', hcnt], by rw [hr, hr'], hbuf, hbuf',
      hsim.2⟩
  · left
    exact ⟨.bufferOverflow, Update_wrap le s data hbs hl (by omega),
      Update_wrap le t data hbt hl (by omega)⟩

theorem UpdateAll_alike (le : Bool) (chunks : List (List Nat)) :
    ∀ s t : CSHA1, s.alike t → (∀ c ∈ chunks, c.length < 2 ^ 32) →
      (∃ e, UpdateAll le s chunks = .error e ∧ UpdateAll le t chunks = .error e)
        ∨ ∃ s' t', UpdateAll le s chunks = .ok s' ∧ UpdateAll le t chunks = .ok t'
          ∧ s'.alike t' := by
  induction chunks with
  | nil => intro s t h _; exact Or.inr ⟨s, t, rfl, rfl, h⟩
  | cons c cs ih =>
    intro s t h hc
    rcases Update_alike le s t c h (hc c (List.mem_cons_self _ _)) with
      ⟨e, h1, h2⟩ | ⟨s1, t1, h1, h2, h12⟩
    · exact Or.inl ⟨e, UpdateAll_cons_error _ _ _ _ _ h1, UpdateAll_cons_error _ _ _ _ _ h2⟩
    · rw [UpdateAll_cons_ok _ _ _ _ _ h1, UpdateAll_cons_ok _ _ _ _ _ h2]
      exact ih s1 t1 h12 (fun x hx => hc x (List.mem_cons_of_mem _ hx))

theorem Reset_alike (s1 s2 : CSHA1) (h1 : s1.m_buffer.length = 64) (h2 : s2.m_buffer.length = 64)
    (hm : ∀ k, 16 ≤ k → s1.m_block k = s2.m_block k) : (Reset s1).alike (Reset s2) :=
  ⟨rfl, rfl, by simp [CSHA1.residual, CSHA1.j, Reset], h1, h2, hm⟩

/-- What `Reset` does erase: take two engines whose state words, counter
words, buffer contents and sixteen workspace words are arbitrary and may all
differ, with 64-byte buffers and the same memory after the workspace.  After
`Reset`, every sequence of `Update` calls with 32-bit lengths behaves the same
on both: either both runs stop at the same fault, or both return, with
identical state words, counter words and buffered residual. -/
theorem Reset_erases_history (le : Bool) (s1 s2 : CSHA1) (chunks : List (List Nat))
    (h1 : s1.m_buffer.length = 64) (h2 : s2.m_buffer.length = 64)
    (hm : ∀ k, 16 ≤ k → s1.m_block k = s2.m_block k)
    (hc : ∀ c ∈ chunks, c.length < 2 ^ 32) :
    (∃ e, UpdateAll le (Reset s1) chunks = .error e ∧ UpdateAll le (Reset s2) chunks = .error e)
      ∨ ∃ r1 r2, UpdateAll le (Reset s1) chunks = .ok r1 ∧ UpdateAll le (Reset s2) chunks = .ok r2
        ∧ r1.m_state = r2.m_state ∧ r1.m_count = r2.m_count ∧ r1.residual = r2.residual := by
  rcases UpdateAll_alike le chunks _ _ (Reset_alike s1 s2 h1 h2 hm) hc with
    ⟨e, e1, e2⟩ | ⟨r1, r2, e1, e2, hst, hcnt, hres, _⟩
  · exact Or.inl ⟨e, e1, e2⟩
  · exact Or.inr ⟨r1, r2, e1, e2, hst, hcnt, hres⟩

theorem Reset_erases_history_witness :
    (∃ e, UpdateAll true (Reset staleEngine) [abc, abcPadding] = .error e
        ∧ UpdateAll true (Reset (buffered 5)) [abc, abcPadding] = .error e)
      ∨ ∃ r1 r2, UpdateAll true (Reset staleEngine) [abc, abcPadding] = .ok r1
        ∧ UpdateAll true (Reset (buffered 5)) [abc, abcPadding] = .ok r2
        ∧ r1.m_state = r2.m_state ∧ r1.m_count = r2.m_count ∧ r1.residual = r2.residual :=
  Reset_erases_history true staleEngine (buffered 5) [abc, abcPadding] (by decide) (by decide)
    (fun _ _ => rfl) (by decide)

/-- C19: on the little-endian path `Transform` byte-swaps `m_block->l[16..19]`
in place and `Reset` does not restore them.  An engine with `l[16] = 1`,
after `Reset` and an `Update` of 64 zero bytes, holds `l[16] = 0x01000000`;
`Reset` and the same `Update` once more on that engine end in other state
words than the first time, and so do the two engines that differ only in
`l[16]` (1 and `0x01000000`). -/
theorem Reset_keeps_swapped_words :
    wordAfterWorkspace (UpdateAll true (Reset engineOneAfter) [List.replicate 64 0])
        = some 16777216
      ∧ stateOf (UpdateAll true (Reset engineOneAfter) [List.replicate 64 0])
        ≠ stateOf (resetAndUpdateTwice true engineOneAfter [List.replicate 64 0])
      ∧ stateOf (UpdateAll true (Reset engineOneAfter) [List.replicate 64 0])
        ≠ stateOf (UpdateAll true (Reset engineSwappedAfter) [List.replicate 64 0]) :=
  ⟨by decide, by decide, by decide⟩

/-! ## HashFile on a readable file -/

theorem HashFileLoop_ok (le : Bool) (reads : List Read) :
    ∀ s s' : CSHA1, (∀ r ∈ reads, r.error = false ∧ 0 < r.bytes.length) →
      UpdateAll le s (chunksOf reads) = .ok s' → HashFileLoop le s reads = .ok s' := by
  induction reads with
  | nil =>
    intro s s' _ h
    rw [chunksOf, List.map_nil, UpdateAll] at h
    cases h
    rfl
  | cons r rs ih =>
    intro s s' hr h
    obtain ⟨he, hn⟩ := hr r (List.mem_cons_self _ _)
    have hne : ¬ r.bytes.length = 0 := by omega
    cases h1 : Update le s r.bytes with
    | error e =>
      rw [chunksOf, List.map_cons, UpdateAll_cons_error _ _ _ _ _ h1] at h
      cases h
    | ok s1 =>
      rw [chunksOf, List.map_cons, UpdateAll_cons_ok _ _ _ _ _ h1] at h
      rw [HashFileLoop, if_neg hne, he, h1]
      exact ih s1 s' (fun x hx => hr x (List.mem_cons_of_mem _ hx)) h

theorem foldl_updateCount_sum (lens : List Nat) :
    ∀ c : Nat × Nat, c.1 < 2 ^ 32 → c.2 < 2 ^ 32 →
      lens.foldl updateCount c = updateCount c lens.sum := by
  induction lens with
  | nil =>
    intro c h0 h1
    obtain ⟨c0, c1⟩ := c
    simp only at h0 h1
    rw [List.foldl_nil, List.sum_nil, updateCount_eq c0 c1 0 h0]
    ext <;> simp <;> omega
  | cons n ns ih =>
    intro c h0 h1
    rw [List.foldl_cons, ih _ (updateCount_fst_lt c n) (updateCount_snd_lt c n),
      updateCount_add c n ns.sum h0, List.sum_cons]

/-- What `HashFile` does on a file that opens and whose reads all succeed
with between 1 and 8000 bytes each, while `j + |c|` stays below `2 ^ 32`: it
returns `true`, and the engine has the state words, counter words, residual,
workspace and `Transform` count of one `Update` over the content `c`. -/
theorem HashFile_spec (le : Bool) (s : CSHA1) (reads : List Read)
    (hb : s.m_buffer.length = 64) (h0 : s.m_count.1 < 2 ^ 32) (h1 : s.m_count.2 < 2 ^ 32)
    (hr : ∀ r ∈ reads, r.error = false ∧ 0 < r.bytes.length
      ∧ r.bytes.length ≤ SHA1_MAX_FILE_BUFFER)
    (hw : s.j + (contentOf reads).length < 2 ^ 32) :
    ∃ s' u, HashFile le s (some reads) = .ok (true, s')
      ∧ Update le s (contentOf reads) = .ok u
      ∧ s'.m_state = u.m_state ∧ s'.m_count = u.m_count ∧ s'.residual = u.residual
      ∧ s'.m_block = u.m_block ∧ s'.transforms = u.transforms := by
  have hlen : ∀ c ∈ chunksOf reads, c.length + 63 < 2 ^ 32 := by
    intro c hc
    obtain ⟨r, hrm, rfl⟩ := List.mem_map.1 hc
    have := (hr r hrm).2.2
    simp only [SHA1_MAX_FILE_BUFFER] at this
    omega
  obtain ⟨s', hs', hcore, hcount, _, hres⟩ := UpdateAll_spec le (chunksOf reads) s hb hlen
  obtain ⟨u, hu, hcore', hcount', _, hres'⟩ := Update_spec le s (contentOf reads) hb hw
  have hloop := HashFileLoop_ok le reads s s' (fun r hrm => ⟨(hr r hrm).1, (hr r hrm).2.1⟩) hs'
  have hc : s'.core = u.core := by rw [hcore, hcore']; rfl
  refine ⟨s', u, ?_, hu, congrArg (·.1) hc, ?_, ?_, congrArg (·.2.1) hc, congrArg (·.2.2) hc⟩
  · simp only [HashFile, hloop]
  · rw [hcount, hcount', foldl_updateCount_sum _ _ h0 h1, contentOf, List.length_flatten]
  · rw [hres, hres']; rfl


theorem bigFile_reads : ∀ r ∈ bigFile, r.error = false ∧ 0 < r.bytes.length
    ∧ r.bytes.length ≤ SHA1_MAX_FILE_BUFFER := by
  intro r hr
  have hf : fullRead.bytes.length = 8000 := List.length_replicate _ _
  have hl : lastRead.bytes.length = 7295 := List.length_replicate _ _
  rw [bigFile, List.mem_append, List.mem_singleton] at hr
  rcases hr with hr | hr
  · rw [List.eq_of_mem_replicate hr, hf]
    exact ⟨rfl, by norm_num, by norm_num [SHA1_MAX_FILE_BUFFER]⟩
  · rw [hr, hl]
    exact ⟨rfl, by norm_num, by norm_num [SHA1_MAX_FILE_BUFFER]⟩

theorem zeroFile_length (n m : Nat) :
    (contentOf (List.replicate n fullRead ++ [⟨List.replicate m 0, false⟩])).length
      = n * 8000 + m := by
  have hf : fullRead.bytes.length = 8000 := List.length_replicate _ _
  simp only [contentOf, chunksOf, List.length_flatten, List.map_append, List.map_replicate,
    List.map_cons, List.map_nil, List.sum_append, List.sum_replicate, List.sum_cons,
    List.sum_nil, List.length_replicate, hf, smul_eq_mul, Nat.add_zero]

theorem bigFile_length : (contentOf bigFile).length = 2 ^ 32 - 1 :=
  (zeroFile_length 536870 7295).trans (by norm_num)

theorem HashFile_of_loop (le : Bool) (s s' : CSHA1) (reads : List Read)
    (h : HashFileLoop le s reads = .ok s') : HashFile le s (some reads) = .ok (true, s') := by
  simp only [HashFile, h]

/-- C11: for the file of `2 ^ 32 - 1` zero bytes, read without error in
chunks of at most 8000 bytes, and an engine with 63 bytes buffered,
`HashFile` returns `true`, while the single `Update` over the whole content
from the same engine writes past `m_buffer` (the 32-bit sum `j + len` wraps)
and leaves no state to compare with. -/
theorem HashFile_not_single_Update_at_wrap :
    (∃ s', HashFile true (buffered 63) (some bigFile) = .ok (true, s'))
      ∧ Update true (buffered 63) (contentOf bigFile) = .error .bufferOverflow
      ∧ (contentOf bigFile).length = 2 ^ 32 - 1
      ∧ ∀ r ∈ bigFile, r.error = false ∧ 0 < r.bytes.length
        ∧ r.bytes.length ≤ SHA1_MAX_FILE_BUFFER := by
  have hb : (buffered 63).m_buffer.length = 64 := by decide
  have hj : (buffered 63).j = 63 := by decide
  have hlen : ∀ c ∈ chunksOf bigFile, c.length + 63 < 2 ^ 32 := by
    intro c hc
    obtain ⟨r, hrm, rfl⟩ := List.mem_map.1 hc
    have := (bigFile_reads r hrm).2.2
    simp only [SHA1_MAX_FILE_BUFFER] at this
    omega
  obtain ⟨s', hs', _⟩ := UpdateAll_spec true (chunksOf bigFile) (buffered 63) hb hlen
  have hloop := HashFileLoop_ok true bigFile (buffered 63) s'
    (fun r hrm => ⟨(bigFile_reads r hrm).1, (bigFile_reads r hrm).2.1⟩) hs'
  refine ⟨⟨s', HashFile_of_loop _ _ _ _ hloop⟩, ?_, bigFile_length, bigFile_reads⟩
  exact Update_wrap true _ _ hb (by rw [bigFile_length]; norm_num)
    (by rw [hj, bigFile_length]; norm_num)

end SHA1
